import Mathlib

/-!
Verification of the entity-ancestry subsystem of the `datacommons_client`
library, as described in the repository's system specification.

The code under `src/datacommons_client/endpoints/node.py` and
`src/datacommons_client/models/base.py` is embedded directly.  The graph
utilities (`datacommons_client/utils/graph.py`: `Parent`, `fetch_parents_lru`,
`build_ancestry_map`, `flatten_ancestry`, `build_ancestry_tree`) are imported
by `node.py` but their source file is not part of the sources; those
definitions are modelled from the specification, as marked in their doc
comments.
-/

namespace DCClient

/-- The `Parent` record of `datacommons_client.utils.graph` (spec §3):
an immutable record `{dcid, name, types}` describing one direct ancestor. -/
structure Parent where
  dcid : String
  name : Option String
  types : List String
deriving DecidableEq, Repr

/-- Association-list lookup, first matching key wins (dictionary lookup). -/
def lookupKey {α : Type} (d : String) : List (String × α) → Option α
  | [] => none
  | (k, v) :: rest => if k = d then some v else lookupKey d rest

/-- A finite remote parent relation: the environment model of the remote
service, mapping a node dcid to its list of direct parents.  A node absent
from the relation has no parents. -/
abbrev ParentRel := List (String × List Parent)

/-- The parents the remote service reports for `d` under relation `rel`. -/
def fetchOf (rel : ParentRel) (d : String) : List Parent :=
  (lookupKey d rel).getD []

/-- The per-client parent cache (spec §3 "Cache entry"): keyed by node
identifier (one such cache exists per client instance). -/
abbrev Cache := List (String × List Parent)

/-- Modelled from the spec: `fetch_parents_lru` of
`datacommons_client/utils/graph.py` is not among the sources (only its caller
`NodeEndpoint._fetch_parents_cached` is).  Spec §4.1: on first call for a
given key, issues exactly one remote property-value request, stores the
decoded sequence of `Parent` records in the cache, and returns it; on
subsequent calls with the same key, returns the cached sequence without any
network access.  State-passing form: returns the result, the updated cache,
and the number of network requests issued by this call. -/
def fetch_parents_lru (fetch : String → List Parent) (c : Cache) (d : String) :
    List Parent × Cache × Nat :=
  match lookupKey d c with
  | some ps => (ps, c, 0)
  | none => (fetch d, (d, fetch d) :: c, 1)

/-- The ancestry map (spec §3): node identifier → its direct parents, covering
every node discovered during one traversal. -/
abbrev AncestryMap := List (String × List Parent)

/-- All dcids occurring as a parent anywhere in the relation's values. -/
def allParentDcids (rel : ParentRel) : List String :=
  rel.flatMap (fun kv => kv.2.map Parent.dcid)

/-- Modelled from the spec: the breadth-first loop of `build_ancestry_map`
(`datacommons_client/utils/graph.py` is not among the sources).  Spec §4.2:
maintain a frontier and a visited set; each level fetches the parents of every
unvisited frontier node, marks them visited, records `map[node] = parents`,
and the next frontier is the set of parent dcids minus visited nodes.  The
returned second component is the final visited list, which doubles as the
ordered fetch log (each fetched node is appended exactly when fetched).
Explicit fuel stands in for the loop; termination is proved separately. -/
def bfsLoop (fetch : String → List Parent) :
    Nat → List String → List String → AncestryMap → AncestryMap × List String
  | 0, _, visited, amap => (amap, visited)
  | fuel + 1, frontier, visited, amap =>
    let todo := (frontier.filter (fun d => decide (d ∉ visited))).dedup
    if todo = [] then (amap, visited)
    else
      bfsLoop fetch fuel
        ((todo.flatMap (fun d => (fetch d).map Parent.dcid)).filter
          (fun d => decide (d ∉ visited ++ todo)))
        (visited ++ todo)
        (amap ++ todo.map (fun d => (d, fetch d)))

/-- Fuel sufficient for `bfsLoop` to reach its natural stop: one more than the
number of distinct node identifiers that can ever be visited. -/
def bfsBound (rel : ParentRel) (start : String) : Nat :=
  (start :: allParentDcids rel).dedup.length + 1

/-- Modelled from the spec: `build_ancestry_map` of
`datacommons_client/utils/graph.py` (spec §4.2 contract
`build_ancestry_map(start_id, fetch_parents, max_concurrency) ->
(start_id, ancestry_map)`), instantiated with the finite remote relation
`rel` as the parent fetcher. -/
def build_ancestry_map (rel : ParentRel) (start : String) : String × AncestryMap :=
  (start, (bfsLoop (fetchOf rel) (bfsBound rel start) [start] [] []).1)

/-- The ordered list of node identifiers the builder fetched. -/
def build_ancestry_log (rel : ParentRel) (start : String) : List String :=
  (bfsLoop (fetchOf rel) (bfsBound rel start) [start] [] []).2

/-- The two-node cyclic relation of the claim: A's parent is B, B's is A. -/
def cycleRel : ParentRel :=
  [("A", [{ dcid := "B", name := none, types := [] }]),
   ("B", [{ dcid := "A", name := none, types := [] }])]

/-- One de-duplicating pass over a level's parent records: append each parent
whose `dcid` has not been recorded yet, remembering appended dcids. -/
def flattenStep (acc : List String × List Parent) (ps : List Parent) :
    List String × List Parent :=
  ps.foldl
    (fun acc p =>
      if p.dcid ∈ acc.1 then acc else (acc.1 ++ [p.dcid], acc.2 ++ [p]))
    acc

/-- Breadth-first walk over a completed ancestry map (no fetching): per level,
gather the frontier nodes' parents from the map, append the newly seen ones,
and advance to the dcids appended at this level. -/
def flattenLoop (amap : AncestryMap) :
    Nat → List String → List String → List Parent → List Parent
  | 0, _, _, out => out
  | fuel + 1, frontier, seen, out =>
    if frontier = [] then out
    else
      flattenLoop amap fuel
        (((flattenStep (seen, out)
            (frontier.flatMap (fun d => (lookupKey d amap).getD []))).2.drop
              out.length).map Parent.dcid)
        (flattenStep (seen, out)
          (frontier.flatMap (fun d => (lookupKey d amap).getD []))).1
        (flattenStep (seen, out)
          (frontier.flatMap (fun d => (lookupKey d amap).getD []))).2

/-- Fuel sufficient for the walk: two more than the total number of parent
records stored in the map (every productive level appends at least one). -/
def flatFuel (amap : AncestryMap) : Nat :=
  (amap.flatMap (fun kv => kv.2)).length + 2

/-- Modelled from the spec: `flatten_ancestry` of
`datacommons_client/utils/graph.py` is not among the sources.  Spec §4.3:
`flatten(start_id, ancestry_map)` performs a breadth-first walk from
`start_id` using only the map, appending each newly-seen parent (by `dcid`)
in discovery order, skipping parents whose `dcid` was already appended; the
starting node itself is never included. -/
def flatten_ancestry (start : String) (amap : AncestryMap) : List Parent :=
  flattenLoop amap (flatFuel amap) [start] [start] []

/-- The de-duplication invariant of the walk: output dcids are
duplicate-free, every output dcid has been recorded in `seen`, and the start
node is recorded in `seen` yet absent from the output. -/
def FlatInv (start : String) (acc : List String × List Parent) : Prop :=
  (acc.2.map Parent.dcid).Nodup ∧ (∀ p ∈ acc.2, p.dcid ∈ acc.1) ∧
    start ∈ acc.1 ∧ start ∉ acc.2.map Parent.dcid

/-- A diamond-shaped ancestry map: the two parents P1 and P2 of S share the
same grandparent G. -/
def diamondMap : AncestryMap :=
  [("S", [{ dcid := "P1", name := some "P1", types := ["City"] },
          { dcid := "P2", name := some "P2", types := ["City"] }]),
   ("P1", [{ dcid := "G", name := some "G", types := ["State"] }]),
   ("P2", [{ dcid := "G", name := some "G", types := ["State"] }]),
   ("G", [])]

/-- The `type` field of a flat parent entry or tree node: the single type
string when the record lists exactly one type, the full ordered sequence
otherwise, or absent (for the tree root, whose own record is unknown). -/
inductive TypeField where
  | absent
  | single (t : String)
  | many (ts : List String)
deriving DecidableEq, Repr

/-- Source expression `parent.types[0] if len(parent.types) == 1 else parent.types`
(`node.py:321` and, per the spec, the tree builder). -/
def typeFieldOfTypes : List String → TypeField
  | [t] => .single t
  | ts => .many ts

/-- The nested ancestry tree (spec §3):
`{dcid, name, type, parents: ordered sequence of trees}`. -/
inductive AncestryTree where
  | node (dcid : String) (name : Option String) (type : TypeField)
      (parents : List AncestryTree)

def AncestryTree.dcidOf : AncestryTree → String
  | .node d _ _ _ => d

def AncestryTree.parentsOf : AncestryTree → List AncestryTree
  | .node _ _ _ ps => ps

/-- Fuel-indexed recursive tree construction: a node for `d` whose `parents`
field is the ordered sequence of trees built for each of `d`'s direct parents
per the map. -/
def toTreeAux (amap : AncestryMap) : Nat → String → Option String → TypeField → AncestryTree
  | 0, d, nm, tf => .node d nm tf []
  | fuel + 1, d, nm, tf =>
    .node d nm tf
      (((lookupKey d amap).getD []).map
        (fun p => toTreeAux amap fuel p.dcid p.name (typeFieldOfTypes p.types)))

/-- Modelled from the spec: `build_ancestry_tree` of
`datacommons_client/utils/graph.py` is not among the sources.  Spec §4.3:
`to_tree(start_id, ancestry_map)` recursively builds a tree node for
`start_id` whose `parents` field is the ordered sequence of trees built, by
the same function, for each of its direct parents per the map; recursion
depth equals the longest ancestor chain, which for a map produced by the
breadth-first builder is at most the number of keys. -/
def build_ancestry_tree (start : String) (amap : AncestryMap) : AncestryTree :=
  toTreeAux amap (amap.length + 1) start none .absent

/-- The chain map `{A: [B], B: [C], C: []}` of the claim. -/
def chainMapABC : AncestryMap :=
  [("A", [{ dcid := "B", name := some "B", types := ["City", "Town"] }]),
   ("B", [{ dcid := "C", name := some "C", types := ["State"] }]),
   ("C", [])]

/-- Modelled from the spec: failure-aware form of `fetch_parents_lru`
(spec §4.1 failure semantics: a failed fetch propagates unchanged, is not
retried, and the cache is not populated on failure). -/
def fetch_parents_lru_e {ε : Type} (fetch : String → Except ε (List Parent))
    (c : Cache) (d : String) : Except ε (List Parent × Cache × Nat) :=
  match lookupKey d c with
  | some ps => .ok (ps, c, 0)
  | none =>
    match fetch d with
    | .ok ps => .ok (ps, (d, ps) :: c, 1)
    | .error e => .error e

/-- Fetch one breadth-first level, surfacing the first failure. -/
def fetchLevelE {ε : Type} (fetch : String → Except ε (List Parent)) :
    List String → Except ε (List (String × List Parent))
  | [] => .ok []
  | d :: rest =>
    match fetch d with
    | .error e => .error e
    | .ok ps =>
      match fetchLevelE fetch rest with
      | .error e => .error e
      | .ok rs => .ok ((d, ps) :: rs)

/-- Modelled from the spec: the breadth-first builder loop with failure-aware
fetching (spec §5, §7: a failure in any single fetch surfaces as a failure of
the entire containing builder invocation; no partial ancestry is returned). -/
def bfsLoopE {ε : Type} (fetch : String → Except ε (List Parent)) :
    Nat → List String → List String → AncestryMap →
    Except ε (AncestryMap × List String)
  | 0, _, visited, amap => .ok (amap, visited)
  | fuel + 1, frontier, visited, amap =>
    let todo := (frontier.filter (fun d => decide (d ∉ visited))).dedup
    if todo = [] then .ok (amap, visited)
    else
      match fetchLevelE fetch todo with
      | .error e => .error e
      | .ok results =>
        bfsLoopE fetch fuel
          ((results.flatMap (fun r => r.2.map Parent.dcid)).filter
            (fun d => decide (d ∉ visited ++ todo)))
          (visited ++ todo) (amap ++ results)

/-- A finite remote relation whose per-node answers may fail. -/
abbrev ParentRelE (ε : Type) := List (String × Except ε (List Parent))

def fetchOfE {ε : Type} (rel : ParentRelE ε) (d : String) :
    Except ε (List Parent) :=
  (lookupKey d rel).getD (.ok [])

def allParentDcidsE {ε : Type} (rel : ParentRelE ε) : List String :=
  rel.flatMap (fun kv =>
    match kv.2 with
    | .ok ps => ps.map Parent.dcid
    | .error _ => [])

def bfsBoundE {ε : Type} (rel : ParentRelE ε) (start : String) : Nat :=
  (start :: allParentDcidsE rel).dedup.length + 1

/-- One or many input identifiers (`entity_dcids: str | list[str]`). -/
inductive EntityInput where
  | one (d : String)
  | many (ds : List String)

/-- Source line `if isinstance(entity_dcids, str): entity_dcids = [entity_dcids]`
(node.py:372-373). -/
def normalizeInput : EntityInput → List String
  | .one d => [d]
  | .many ds => ds

/-- The per-entity output of the orchestrator: a flat de-duplicated parent
list or a nested ancestry tree, per the `as_tree` flag. -/
inductive AncestryResult where
  | flat (ps : List Parent)
  | tree (t : AncestryTree)

/-- Fetch one breadth-first level through the shared per-client cache,
threading the cache left to right. -/
def fetchLevelC (fetch : String → List Parent) (c : Cache) (todo : List String) :
    List (String × List Parent) × Cache :=
  todo.foldl
    (fun acc d =>
      (acc.1 ++ [(d, (fetch_parents_lru fetch acc.2 d).1)],
        (fetch_parents_lru fetch acc.2 d).2.1))
    ([], c)

/-- The breadth-first builder loop fetching through the shared per-client
cache (node.py:331-344 together with the spec §4.2 loop). -/
def bfsLoopC (fetch : String → List Parent) :
    Nat → List String → List String → AncestryMap → Cache →
    (AncestryMap × List String) × Cache
  | 0, _, visited, amap, c => ((amap, visited), c)
  | fuel + 1, frontier, visited, amap, c =>
    let todo := (frontier.filter (fun d => decide (d ∉ visited))).dedup
    if todo = [] then ((amap, visited), c)
    else
      bfsLoopC fetch fuel
        (((fetchLevelC fetch c todo).1.flatMap (fun r => r.2.map Parent.dcid)).filter
          (fun d => decide (d ∉ visited ++ todo)))
        (visited ++ todo)
        (amap ++ (fetchLevelC fetch c todo).1)
        (fetchLevelC fetch c todo).2

/-- A cache is valid for a fetcher when every stored entry is exactly what
the fetcher returns for its key (spec §5: duplicate writes are idempotent). -/
def CacheValid (fetch : String → List Parent) (c : Cache) : Prop :=
  ∀ d ps, lookupKey d c = some ps → ps = fetch d

/-- Modelled from the spec: the Ancestry Orchestrator
`NodeEndpoint.fetch_entity_ancestry` (node.py:346-397) — its postprocessing
calls land in the missing `utils/graph.py`.  The concurrent per-entity
builder invocations, which share the one per-client cache, are modelled as
sequential cache threading; each completed builder result is postprocessed
per the `as_tree` flag and keyed by the original input identifier. -/
def fetch_entity_ancestry (rel : ParentRel) (input : EntityInput)
    (as_tree : Bool) : List (String × AncestryResult) :=
  ((normalizeInput input).foldl
    (fun (acc : List (String × AncestryResult) × Cache) d =>
      (acc.1 ++ [(d,
        if as_tree then
          .tree (build_ancestry_tree d
            (bfsLoopC (fetchOf rel) (bfsBound rel d) [d] [] [] acc.2).1.1)
        else
          .flat (flatten_ancestry d
            (bfsLoopC (fetchOf rel) (bfsBound rel d) [d] [] [] acc.2).1.1))],
        (bfsLoopC (fetchOf rel) (bfsBound rel d) [d] [] [] acc.2).2))
    ([], [])).1

/-- Modelled from the spec: the failure-aware orchestrator (spec §7: the
first failure is surfaced once dispatched work settles; no partial result). -/
def fetch_entity_ancestry_e {ε : Type} (rel : ParentRelE ε)
    (input : EntityInput) (as_tree : Bool) :
    Except ε (List (String × AncestryResult)) :=
  (normalizeInput input).foldl
    (fun acc d =>
      match acc with
      | .error e => .error e
      | .ok res =>
        match bfsLoopE (fetchOfE rel) (bfsBoundE rel d) [d] [] [] with
        | .error e => .error e
        | .ok r =>
          .ok (res ++ [(d,
            if as_tree then .tree (build_ancestry_tree d r.1)
            else .flat (flatten_ancestry d r.1))]))
    (.ok [])

/-- The concrete failing relation: the very first fetch errors. -/
def failRelE : ParentRelE String := [("A", .error "boom")]

/-- A relation whose two starting entities X and Y have disjoint ancestries. -/
def disjointRel : ParentRel :=
  [("X", [{ dcid := "PX", name := none, types := [] }]),
   ("Y", [{ dcid := "PY", name := none, types := [] }]),
   ("PX", []), ("PY", [])]

/-- Constant `MAX_WORKERS = 20` (node.py:16). -/
def MAX_WORKERS : Nat := 20

/-- The orchestrator's own pool
(`ThreadPoolExecutor(max_workers=MAX_WORKERS)`, node.py:378) runs at most
`MAX_WORKERS` builder invocations at once (one per input entity). -/
def maxConcurrentBuilders (numEntities : Nat) : Nat :=
  min numEntities MAX_WORKERS

/-- Modelled from the spec: the per-level worker pool inside
`build_ancestry_map` (in `datacommons_client/utils/graph.py`, not among the
sources) is bounded by the `max_workers` argument, which node.py:384 sets to
the same `MAX_WORKERS` constant; the two pools are separate objects with no
shared semaphore, so their capacities compound.  Static worst case of
simultaneously outstanding network requests for `numEntities` inputs. -/
def worstCaseOutstanding (numEntities : Nat) : Nat :=
  maxConcurrentBuilders numEntities * MAX_WORKERS

/-- The value of the `containedInPlace` property for one entity as returned
by `get_properties()`: one record or a list of records
(`if not isinstance(properties, list)`, node.py:317). -/
inductive NodeProps where
  | one (p : Parent)
  | many (ps : List Parent)

/-- Source line `if not isinstance(properties, list): properties = [properties]`
(node.py:317-318). -/
def normalizeProps : NodeProps → List Parent
  | .one p => [p]
  | .many ps => ps

/-- A flat parent entry `{'dcid': ..., 'name': ..., 'type': ...}`
(node.py:323-327). -/
structure ParentEntry where
  dcid : String
  name : Option String
  type : TypeField
deriving DecidableEq, Repr

/-- The dictionary built for one parent record, its `type` value being
`parent.types[0] if len(parent.types) == 1 else parent.types`
(node.py:321-327). -/
def parentToDict (p : Parent) : ParentEntry :=
  { dcid := p.dcid, name := p.name, type := typeFieldOfTypes p.types }

/-- Method `NodeEndpoint.fetch_entity_parents` (node.py:293-329): iterate the
fetched properties; for each parent of an entity, `setdefault(entity,
[]).append(...)` — so an entity enters the result exactly when it contributes
at least one parent. -/
def fetch_entity_parents (data : List (String × NodeProps)) :
    List (String × List ParentEntry) :=
  data.foldl
    (fun acc kv =>
      if normalizeProps kv.2 = [] then acc
      else acc ++ [(kv.1, (normalizeProps kv.2).map parentToDict)])
    []

/-- JSON-like values: the image of `dataclasses.asdict` on a serializable
response instance (models/base.py:29). -/
inductive JsonVal where
  | null
  | str (s : String)
  | num (n : Int)
  | boolean (b : Bool)
  | arr (xs : List JsonVal)
  | obj (fields : List (String × JsonVal))

/-- Test `v is None` (models/base.py:24). -/
def isNull : JsonVal → Bool
  | .null => true
  | _ => false

mutual
/-- Helper `_remove_none` (models/base.py:21-27): on a dict, keep the entries whose
original value is not `None` and recurse into the kept values; on a list,
recurse into every element without removing any; return anything else
unchanged. -/
def removeNone : JsonVal → JsonVal
  | .null => .null
  | .str s => .str s
  | .num n => .num n
  | .boolean b => .boolean b
  | .arr xs => .arr (removeNoneList xs)
  | .obj fs => .obj (removeNoneObj fs)

def removeNoneList : List JsonVal → List JsonVal
  | [] => []
  | x :: xs => removeNone x :: removeNoneList xs

def removeNoneObj : List (String × JsonVal) → List (String × JsonVal)
  | [] => []
  | (k, v) :: rest =>
    if isNull v then removeNoneObj rest
    else (k, removeNone v) :: removeNoneObj rest
end

/-- Method `SerializableMixin.to_dict` (models/base.py:11-30) acting on the
`asdict` image of the instance. -/
def to_dict (v : JsonVal) (exclude_none : Bool) : JsonVal :=
  if exclude_none then removeNone v else v

mutual
/-- No dictionary entry anywhere in the value has a `None` value (list
elements are not constrained — only dict entries are filtered). -/
def noNullEntries : JsonVal → Bool
  | .arr xs => noNullEntriesList xs
  | .obj fs => noNullEntriesObj fs
  | _ => true

def noNullEntriesList : List JsonVal → Bool
  | [] => true
  | x :: xs => noNullEntries x && noNullEntriesList xs

def noNullEntriesObj : List (String × JsonVal) → Bool
  | [] => true
  | (_, v) :: rest => !isNull v && noNullEntries v && noNullEntriesObj rest
end

theorem isNull_removeNone (v : JsonVal) : isNull (removeNone v) = isNull v := by
  cases v <;> rw [removeNone] <;> rfl

theorem removeNoneList_eq_map :
    ∀ xs : List JsonVal, removeNoneList xs = xs.map removeNone := by
  intro xs
  induction xs with
  | nil => rw [removeNoneList]; rfl
  | cons x xs ih => rw [removeNoneList, ih]; rfl

theorem removeNone_noNull_aux :
    ∀ n : Nat,
      (∀ v : JsonVal, sizeOf v ≤ n → noNullEntries (removeNone v) = true) ∧
      (∀ xs : List JsonVal, sizeOf xs ≤ n →
        noNullEntriesList (removeNoneList xs) = true) ∧
      (∀ fs : List (String × JsonVal), sizeOf fs ≤ n →
        noNullEntriesObj (removeNoneObj fs) = true) := by
  intro n
  induction n with
  | zero =>
    refine ⟨?_, ?_, ?_⟩
    · intro v h; exfalso; cases v <;> simp_arith at h
    · intro xs h; exfalso; cases xs <;> simp_arith at h
    · intro fs h; exfalso; cases fs <;> simp_arith at h
  | succ m ih =>
    refine ⟨?_, ?_, ?_⟩
    · intro v h
      cases v with
      | null => rfl
      | str s => rfl
      | num k => rfl
      | boolean b => rfl
      | arr xs =>
        rw [removeNone]
        show noNullEntriesList (removeNoneList xs) = true
        refine ih.2.1 xs ?_
        simp_arith at h
        omega
      | obj fs =>
        rw [removeNone]
        show noNullEntriesObj (removeNoneObj fs) = true
        refine ih.2.2 fs ?_
        simp_arith at h
        omega
    · intro xs h
      cases xs with
      | nil => rfl
      | cons x rest =>
        rw [removeNoneList, noNullEntriesList]
        simp_arith at h
        rw [ih.1 x (by omega), ih.2.1 rest (by omega)]
        rfl
    · intro fs h
      cases fs with
      | nil => rfl
      | cons kv rest =>
        rcases kv with ⟨k, v⟩
        rw [removeNoneObj]
        simp_arith at h
        by_cases hv : isNull v = true
        · rw [if_pos hv]
          exact ih.2.2 rest (by omega)
        · rw [if_neg hv]
          rw [noNullEntriesObj, isNull_removeNone]
          rw [ih.1 v (by omega), ih.2.2 rest (by omega)]
          simp [Bool.not_eq_true] at hv
          rw [hv]
          rfl

/-- C1: the first call of the cached parent fetcher on an uncached node issues
exactly one remote request, returns the decoded parents and stores them in the
cache; every subsequent call with the same key returns an identical sequence
with zero network calls; a node with no parents is cached as the empty
sequence. -/
theorem c1_parent_fetcher_memoizes (fetch : String → List Parent) (c : Cache)
    (d : String) (h : lookupKey d c = none) :
    (fetch_parents_lru fetch c d).2.2 = 1 ∧
    (fetch_parents_lru fetch c d).1 = fetch d ∧
    lookupKey d (fetch_parents_lru fetch c d).2.1 = some (fetch d) ∧
    fetch_parents_lru fetch (fetch_parents_lru fetch c d).2.1 d =
      ((fetch_parents_lru fetch c d).1, (fetch_parents_lru fetch c d).2.1, 0) ∧
    (fetch d = [] →
      lookupKey d (fetch_parents_lru fetch c d).2.1 = some []) := by
  have h1 : fetch_parents_lru fetch c d = (fetch d, (d, fetch d) :: c, 1) := by
    simp [fetch_parents_lru, h]
  rw [h1]
  refine ⟨rfl, rfl, by simp [lookupKey], ?_, fun he => by simp [lookupKey, he]⟩
  simp [fetch_parents_lru, lookupKey]

/-- Witness for C1 at a concrete input. -/
theorem c1_parent_fetcher_memoizes_witness :
    lookupKey "X" ([] : Cache) = none ∧
    (fetch_parents_lru (fun _ => []) ([] : Cache) "X").2.2 = 1 := by
  refine ⟨rfl, ?_⟩
  exact (c1_parent_fetcher_memoizes (fun _ => []) [] "X" rfl).1

theorem bfsLoop_succ (fetch : String → List Parent) (fuel : Nat)
    (frontier visited : List String) (amap : AncestryMap) :
    bfsLoop fetch (fuel + 1) frontier visited amap =
      (let todo := (frontier.filter (fun d => decide (d ∉ visited))).dedup
       if todo = [] then (amap, visited)
       else
         bfsLoop fetch fuel
           ((todo.flatMap (fun d => (fetch d).map Parent.dcid)).filter
             (fun d => decide (d ∉ visited ++ todo)))
           (visited ++ todo)
           (amap ++ todo.map (fun d => (d, fetch d)))) := rfl

theorem bfsLoop_stop (fetch : String → List Parent) (fuel : Nat)
    (frontier visited : List String) (amap : AncestryMap)
    (h : (frontier.filter (fun d => decide (d ∉ visited))).dedup = []) :
    bfsLoop fetch fuel frontier visited amap = (amap, visited) := by
  cases fuel with
  | zero => rfl
  | succ n => rw [bfsLoop_succ]; simp only []; rw [if_pos h]

theorem lookupKey_mem {α : Type} {d : String} {v : α} :
    ∀ {l : List (String × α)}, lookupKey d l = some v → (d, v) ∈ l := by
  intro l
  induction l with
  | nil => intro h; simp [lookupKey] at h
  | cons kv rest ih =>
    intro h
    rcases kv with ⟨k, w⟩
    by_cases hk : k = d
    · subst hk
      simp [lookupKey] at h
      subst h
      exact List.mem_cons_self _ _
    · simp [lookupKey, hk] at h
      exact List.mem_cons_of_mem _ (ih h)

theorem fetchOf_dcid_mem (rel : ParentRel) (d : String) :
    ∀ p ∈ fetchOf rel d, p.dcid ∈ allParentDcids rel := by
  intro p hp
  unfold fetchOf at hp
  cases hl : lookupKey d rel with
  | none => rw [hl] at hp; simp at hp
  | some ps =>
    rw [hl] at hp
    simp at hp
    exact List.mem_flatMap.2 ⟨(d, ps), lookupKey_mem hl, List.mem_map.2 ⟨p, hp, rfl⟩⟩

theorem nodup_subset_length_le {l u : List String} (hn : l.Nodup)
    (hsub : ∀ d ∈ l, d ∈ u) : l.length ≤ u.dedup.length := by
  have h1 : l ⊆ u.dedup := fun a ha => (List.mem_dedup).2 (hsub a ha)
  exact (hn.subperm h1).length_le

theorem visited_append_todo_nodup (frontier visited : List String)
    (h : visited.Nodup) :
    (visited ++ (frontier.filter (fun d => decide (d ∉ visited))).dedup).Nodup := by
  refine h.append (List.nodup_dedup _) ?_
  intro a ha hat
  have := (List.mem_filter.1 ((List.mem_dedup).1 hat)).2
  simp at this
  exact this ha

/-- Fuel-stability of the breadth-first loop: once the fuel is at least one
more than the number of distinct reachable identifiers not yet visited, the
result no longer depends on the fuel.  `U` is any finite universe containing
the frontier, the visited nodes, and every parent dcid the fetcher can
produce. -/
theorem bfsLoop_stable (fetch : String → List Parent) (U : List String)
    (hfetch : ∀ d, ∀ p ∈ fetch d, p.dcid ∈ U) :
    ∀ fuel₁ fuel₂ frontier visited amap,
      fuel₁ ≤ fuel₂ →
      visited.Nodup → (∀ d ∈ visited, d ∈ U) → (∀ d ∈ frontier, d ∈ U) →
      U.dedup.length + 1 ≤ fuel₁ + visited.length →
      bfsLoop fetch fuel₂ frontier visited amap =
        bfsLoop fetch fuel₁ frontier visited amap := by
  intro fuel₁
  induction fuel₁ with
  | zero =>
    intro fuel₂ frontier visited amap _ hnd hvU _ hmeas
    have := nodup_subset_length_le hnd hvU
    omega
  | succ n ih =>
    intro fuel₂ frontier visited amap hle hnd hvU hfU hmeas
    obtain ⟨m, rfl⟩ : ∃ m, fuel₂ = m + 1 := ⟨fuel₂ - 1, by omega⟩
    rw [bfsLoop_succ, bfsLoop_succ]
    simp only []
    by_cases htodo : (frontier.filter (fun d => decide (d ∉ visited))).dedup = []
    · rw [if_pos htodo, if_pos htodo]
    · rw [if_neg htodo, if_neg htodo]
      have htodoU : ∀ d ∈ (frontier.filter (fun d => decide (d ∉ visited))).dedup,
          d ∈ U := by
        intro d hd
        exact hfU d (List.mem_filter.1 ((List.mem_dedup).1 hd)).1
      have hlen : 1 ≤ (frontier.filter (fun d => decide (d ∉ visited))).dedup.length := by
        rcases List.exists_mem_of_ne_nil _ htodo with ⟨x, hx⟩
        exact List.length_pos.2 htodo
      refine ih m _ _ _ (by omega) (visited_append_todo_nodup _ _ hnd) ?_ ?_ ?_
      · intro d hd
        rcases List.mem_append.1 hd with h1 | h1
        · exact hvU d h1
        · exact htodoU d h1
      · intro d hd
        have h1 := (List.mem_filter.1 hd).1
        rcases List.mem_flatMap.1 h1 with ⟨d', _, hd'⟩
        rcases List.mem_map.1 hd' with ⟨p, hp, rfl⟩
        exact hfetch d' p hp
      · rw [List.length_append]
        omega

/-- The final visited list of the loop is duplicate-free: no node is ever
fetched a second time. -/
theorem bfsLoop_visited_nodup (fetch : String → List Parent) :
    ∀ fuel frontier visited amap, visited.Nodup →
      ((bfsLoop fetch fuel frontier visited amap).2).Nodup := by
  intro fuel
  induction fuel with
  | zero => intro frontier visited amap h; exact h
  | succ n ih =>
    intro frontier visited amap h
    rw [bfsLoop_succ]
    simp only []
    by_cases htodo : (frontier.filter (fun d => decide (d ∉ visited))).dedup = []
    · rw [if_pos htodo]; exact h
    · rw [if_neg htodo]
      exact ih _ _ _ (visited_append_todo_nodup _ _ h)

/-- The accumulated map's keys coincide (in order) with the visited list, and
every recorded entry is exactly what the fetcher returns for its key. -/
theorem bfsLoop_amap_spec (fetch : String → List Parent) :
    ∀ fuel frontier visited amap,
      amap.map Prod.fst = visited → (∀ e ∈ amap, e.2 = fetch e.1) →
      ((bfsLoop fetch fuel frontier visited amap).1).map Prod.fst =
          (bfsLoop fetch fuel frontier visited amap).2 ∧
        (∀ e ∈ (bfsLoop fetch fuel frontier visited amap).1, e.2 = fetch e.1) := by
  intro fuel
  induction fuel with
  | zero => intro frontier visited amap h1 h2; exact ⟨h1, h2⟩
  | succ n ih =>
    intro frontier visited amap h1 h2
    rw [bfsLoop_succ]
    simp only []
    by_cases htodo : (frontier.filter (fun d => decide (d ∉ visited))).dedup = []
    · rw [if_pos htodo]; exact ⟨h1, h2⟩
    · rw [if_neg htodo]
      refine ih _ _ _ ?_ ?_
      · rw [List.map_append, h1, List.map_map]
        have hid : (Prod.fst ∘ fun d : String => (d, fetch d)) = id := rfl
        rw [hid, List.map_id]
      · intro e he
        rcases List.mem_append.1 he with h3 | h3
        · exact h2 e h3
        · rcases List.mem_map.1 h3 with ⟨d, _, rfl⟩
          rfl

/-- One full evaluation of the loop when the start node has no parents. -/
theorem bfsLoop_start_of_no_parents (fetch : String → List Parent)
    (start : String) (fuel : Nat) (h : fetch start = []) :
    bfsLoop fetch (fuel + 1) [start] [] [] = ([(start, [])], [start]) := by
  rw [bfsLoop_succ]
  simp only [List.filter, List.dedup_nil, decide_not]
  simp [h]
  exact bfsLoop_stop _ _ _ _ _ (by simp)

/-- C2: for every finite parent relation — cycles included — the builder
terminates: any fuel at least `bfsBound` yields the very result obtained at
`bfsBound` (the loop has reached its natural stop); no node is ever fetched a
second time (the fetch log is duplicate-free); and on the two-node cycle A↔B
the ancestry map records both A and B with exactly their one parent edge each,
each fetched exactly once. -/
theorem c2_builder_terminates_on_cycles :
    (∀ (rel : ParentRel) (start : String) (fuel : Nat),
      bfsBound rel start ≤ fuel →
      bfsLoop (fetchOf rel) fuel [start] [] [] =
        bfsLoop (fetchOf rel) (bfsBound rel start) [start] [] []) ∧
    (∀ (rel : ParentRel) (start : String), (build_ancestry_log rel start).Nodup) ∧
    build_ancestry_map cycleRel "A" =
      ("A", [("A", [{ dcid := "B", name := none, types := [] }]),
             ("B", [{ dcid := "A", name := none, types := [] }])]) ∧
    build_ancestry_log cycleRel "A" = ["A", "B"] := by
  refine ⟨?_, ?_, by decide, by decide⟩
  · intro rel start fuel hfuel
    have hstab := bfsLoop_stable (fetchOf rel) (start :: allParentDcids rel)
      (fun d p hp => List.mem_cons_of_mem _ (fetchOf_dcid_mem rel d p hp))
    refine hstab (bfsBound rel start) fuel [start] [] [] hfuel List.nodup_nil ?_ ?_ ?_
    · intro d hd; simp at hd
    · intro d hd
      simp at hd
      subst hd
      exact List.mem_cons_self _ _
    · simp [bfsBound]
  · intro rel start
    exact bfsLoop_visited_nodup (fetchOf rel) _ _ _ _ List.nodup_nil

/-- Witness for C2 at a concrete input: fuel 5 exceeds the bound for the
cyclic relation and gives the stabilized result. -/
theorem c2_builder_terminates_on_cycles_witness :
    bfsBound cycleRel "A" ≤ 5 ∧
    bfsLoop (fetchOf cycleRel) 5 ["A"] [] [] =
      bfsLoop (fetchOf cycleRel) (bfsBound cycleRel "A") ["A"] [] [] :=
  ⟨by decide, c2_builder_terminates_on_cycles.1 cycleRel "A" 5 (by decide)⟩

/-- C8: every node the builder expanded appears as a key of the ancestry map
(the keys, in order, are exactly the fetch log), every key maps to precisely
what the remote relation reports for it (so a node with no parents is
recorded with the empty sequence), and a start node with no parents yields
exactly the map `{start: []}`. -/
theorem c8_ancestry_map_invariant :
    (∀ (rel : ParentRel) (start : String),
      ((build_ancestry_map rel start).2).map Prod.fst =
        build_ancestry_log rel start) ∧
    (∀ (rel : ParentRel) (start : String) (e : String × List Parent),
      e ∈ (build_ancestry_map rel start).2 → e.2 = fetchOf rel e.1) ∧
    (∀ (rel : ParentRel) (start : String), fetchOf rel start = [] →
      build_ancestry_map rel start = (start, [(start, [])])) := by
  refine ⟨?_, ?_, ?_⟩
  · intro rel start
    exact (bfsLoop_amap_spec (fetchOf rel) (bfsBound rel start) [start] [] [] rfl
      (fun e he => absurd he (List.not_mem_nil e))).1
  · intro rel start e he
    exact (bfsLoop_amap_spec (fetchOf rel) (bfsBound rel start) [start] [] [] rfl
      (fun e' he' => absurd he' (List.not_mem_nil e'))).2 e he
  · intro rel start h
    have hb : bfsBound rel start = (start :: allParentDcids rel).dedup.length + 1 := rfl
    unfold build_ancestry_map
    rw [hb, bfsLoop_start_of_no_parents (fetchOf rel) start _ h]

/-- Witness for C8 at a concrete input: the empty relation reports no parents
for any node, so the map for a lone start node is exactly `{start: []}`. -/
theorem c8_ancestry_map_invariant_witness :
    fetchOf ([] : ParentRel) "solo" = [] ∧
    build_ancestry_map ([] : ParentRel) "solo" = ("solo", [("solo", [])]) :=
  ⟨rfl, c8_ancestry_map_invariant.2.2 [] "solo" rfl⟩

theorem flattenLoop_succ (amap : AncestryMap) (fuel : Nat)
    (frontier seen : List String) (out : List Parent) :
    flattenLoop amap (fuel + 1) frontier seen out =
      (if frontier = [] then out
       else
         flattenLoop amap fuel
           (((flattenStep (seen, out)
               (frontier.flatMap (fun d => (lookupKey d amap).getD []))).2.drop
                 out.length).map Parent.dcid)
           (flattenStep (seen, out)
             (frontier.flatMap (fun d => (lookupKey d amap).getD []))).1
           (flattenStep (seen, out)
             (frontier.flatMap (fun d => (lookupKey d amap).getD []))).2) := rfl

theorem flattenLoop_stop (amap : AncestryMap) (fuel : Nat) (seen : List String)
    (out : List Parent) : flattenLoop amap fuel [] seen out = out := by
  cases fuel with
  | zero => rfl
  | succ n => rw [flattenLoop_succ, if_pos rfl]

theorem nodup_append_singleton {α : Type} {l : List α} {a : α} (hl : l.Nodup)
    (ha : a ∉ l) : (l ++ [a]).Nodup := by
  rw [List.nodup_append]
  exact ⟨hl, List.nodup_singleton a, by intro x hx hxa; simp at hxa; subst hxa; exact ha hx⟩

theorem flattenStep_inv (start : String) :
    ∀ (ps : List Parent) (acc : List String × List Parent),
      FlatInv start acc → FlatInv start (flattenStep acc ps) := by
  intro ps
  induction ps with
  | nil => intro acc h; exact h
  | cons p rest ih =>
    intro acc h
    rcases h with ⟨hnd, hsub, hstart, hout⟩
    show FlatInv start (flattenStep
      (if p.dcid ∈ acc.1 then acc else (acc.1 ++ [p.dcid], acc.2 ++ [p])) rest)
    by_cases hmem : p.dcid ∈ acc.1
    · rw [if_pos hmem]
      exact ih acc ⟨hnd, hsub, hstart, hout⟩
    · rw [if_neg hmem]
      refine ih _ ⟨?_, ?_, ?_, ?_⟩
      · simp only [List.map_append, List.map_cons, List.map_nil]
        refine nodup_append_singleton hnd ?_
        intro hc
        rcases List.mem_map.1 hc with ⟨q, hq, hqd⟩
        exact hmem (hqd ▸ hsub q hq)
      · intro q hq
        rcases List.mem_append.1 hq with h1 | h1
        · exact List.mem_append_left _ (hsub q h1)
        · simp at h1
          subst h1
          exact List.mem_append_right _ (by simp)
      · exact List.mem_append_left _ hstart
      · simp only [List.map_append, List.map_cons, List.map_nil]
        intro hc
        rcases List.mem_append.1 hc with h1 | h1
        · exact hout h1
        · simp at h1
          exact hmem (h1 ▸ hstart)

theorem flattenLoop_inv (start : String) (amap : AncestryMap) :
    ∀ fuel frontier seen out, FlatInv start (seen, out) →
      ((flattenLoop amap fuel frontier seen out).map Parent.dcid).Nodup ∧
        start ∉ (flattenLoop amap fuel frontier seen out).map Parent.dcid := by
  intro fuel
  induction fuel with
  | zero => intro frontier seen out h; exact ⟨h.1, h.2.2.2⟩
  | succ n ih =>
    intro frontier seen out h
    rw [flattenLoop_succ]
    by_cases hf : frontier = []
    · rw [if_pos hf]; exact ⟨h.1, h.2.2.2⟩
    · rw [if_neg hf]
      exact ih _ _ _ (flattenStep_inv start _ _ h)

/-- C3: the flatten walk over a completed ancestry map contains at most one
entry per distinct parent dcid (first breadth-first occurrence wins — on the
diamond map the shared grandparent G appears exactly once, at its first
discovery position), never includes the start node itself, and on the map
`{start: []}` returns the empty sequence. -/
theorem c3_flatten_dedup_excludes_self :
    (∀ (start : String) (amap : AncestryMap),
      ((flatten_ancestry start amap).map Parent.dcid).Nodup) ∧
    (∀ (start : String) (amap : AncestryMap),
      start ∉ (flatten_ancestry start amap).map Parent.dcid) ∧
    (∀ start : String, flatten_ancestry start [(start, [])] = []) ∧
    flatten_ancestry "S" diamondMap =
      [{ dcid := "P1", name := some "P1", types := ["City"] },
       { dcid := "P2", name := some "P2", types := ["City"] },
       { dcid := "G", name := some "G", types := ["State"] }] := by
  have hinv : ∀ (start : String) (amap : AncestryMap),
      ((flatten_ancestry start amap).map Parent.dcid).Nodup ∧
        start ∉ (flatten_ancestry start amap).map Parent.dcid := by
    intro start amap
    refine flattenLoop_inv start amap (flatFuel amap) [start] [start] []
      ⟨List.nodup_nil, ?_, ?_, ?_⟩
    · intro p hp; simp at hp
    · simp
    · simp
  refine ⟨fun s m => (hinv s m).1, fun s m => (hinv s m).2, ?_, by decide⟩
  intro start
  show flattenLoop [(start, [])] (flatFuel [(start, [])]) [start] [start] [] = []
  have hfuel : flatFuel [(start, [])] = 2 := rfl
  rw [hfuel, flattenLoop_succ, if_neg (by simp)]
  have hlvl : [start].flatMap
      (fun d => (lookupKey d [(start, [])]).getD []) = ([] : List Parent) := by
    simp [lookupKey]
  rw [hlvl]
  exact flattenLoop_stop _ _ _ _

/-- C4: the tree builder produces, for any start identifier and map, a node
for the start whose `parents` field is the ordered sequence of recursively
built trees of its direct parents per the map; a node's `type` field is the
single type string exactly when the `Parent` record lists one type and the
full ordered sequence otherwise; and on the chain map `{A: [B], B: [C],
C: []}` the result is the nested chain A → B → C. -/
theorem c4_tree_builder_shape :
    (∀ (amap : AncestryMap) (fuel : Nat) (d : String) (nm : Option String)
        (tf : TypeField),
      toTreeAux amap (fuel + 1) d nm tf =
        .node d nm tf
          (((lookupKey d amap).getD []).map
            (fun p => toTreeAux amap fuel p.dcid p.name
              (typeFieldOfTypes p.types)))) ∧
    (∀ t : String, typeFieldOfTypes [t] = .single t) ∧
    (∀ ts : List String, ts.length ≠ 1 → typeFieldOfTypes ts = .many ts) ∧
    build_ancestry_tree "A" chainMapABC =
      .node "A" none .absent
        [.node "B" (some "B") (.many ["City", "Town"])
          [.node "C" (some "C") (.single "State") []]] := by
  refine ⟨fun _ _ _ _ _ => rfl, fun _ => rfl, ?_, rfl⟩
  intro ts h
  match ts with
  | [] => rfl
  | [t] => exact absurd rfl h
  | t :: t' :: r => rfl

/-- Witness for C4 at a concrete input: a two-element type list is rendered
as the full sequence. -/
theorem c4_tree_builder_shape_witness :
    typeFieldOfTypes ["City", "Town"] = .many ["City", "Town"] :=
  c4_tree_builder_shape.2.2.1 ["City", "Town"] (by decide)

theorem bfsLoopE_succ {ε : Type} (fetch : String → Except ε (List Parent))
    (fuel : Nat) (frontier visited : List String) (amap : AncestryMap) :
    bfsLoopE fetch (fuel + 1) frontier visited amap =
      (let todo := (frontier.filter (fun d => decide (d ∉ visited))).dedup
       if todo = [] then .ok (amap, visited)
       else
         match fetchLevelE fetch todo with
         | .error e => .error e
         | .ok results =>
           bfsLoopE fetch fuel
             ((results.flatMap (fun r => r.2.map Parent.dcid)).filter
               (fun d => decide (d ∉ visited ++ todo)))
             (visited ++ todo) (amap ++ results)) := rfl

theorem fetchLevelE_ok {ε : Type} (fetch : String → Except ε (List Parent)) :
    ∀ todo rs, fetchLevelE fetch todo = .ok rs →
      rs.map Prod.fst = todo ∧ ∀ x ∈ rs, fetch x.1 = .ok x.2 := by
  intro todo
  induction todo with
  | nil =>
    intro rs h
    simp only [fetchLevelE] at h
    cases h
    exact ⟨rfl, fun x hx => absurd hx (List.not_mem_nil x)⟩
  | cons d rest ih =>
    intro rs h
    simp only [fetchLevelE] at h
    cases hfd : fetch d with
    | error e => rw [hfd] at h; cases h
    | ok ps =>
      rw [hfd] at h
      cases hr : fetchLevelE fetch rest with
      | error e => rw [hr] at h; cases h
      | ok rs' =>
        rw [hr] at h
        cases h
        obtain ⟨h1, h2⟩ := ih rs' hr
        refine ⟨by simp [h1], ?_⟩
        intro x hx
        rcases List.mem_cons.1 hx with h3 | h3
        · subst h3; exact hfd
        · exact h2 x h3

/-- A successful builder run implies every logged (fetched) node's fetch
succeeded: no failed fetch can contribute to an `ok` result. -/
theorem bfsLoopE_ok_log {ε : Type} (fetch : String → Except ε (List Parent)) :
    ∀ fuel frontier visited amap r,
      bfsLoopE fetch fuel frontier visited amap = .ok r →
      ∀ x ∈ r.2, x ∈ visited ∨ ∃ ps, fetch x = .ok ps := by
  intro fuel
  induction fuel with
  | zero =>
    intro frontier visited amap r h x hx
    simp only [bfsLoopE] at h
    cases h
    exact Or.inl hx
  | succ n ih =>
    intro frontier visited amap r h x hx
    rw [bfsLoopE_succ] at h
    simp only [] at h
    by_cases htodo : (frontier.filter (fun d => decide (d ∉ visited))).dedup = []
    · rw [if_pos htodo] at h
      cases h
      exact Or.inl hx
    · rw [if_neg htodo] at h
      cases hlv : fetchLevelE fetch
          ((frontier.filter (fun d => decide (d ∉ visited))).dedup) with
      | error e => rw [hlv] at h; cases h
      | ok results =>
        rw [hlv] at h
        rcases ih _ _ _ r h x hx with hin | hok
        · rcases List.mem_append.1 hin with h1 | h1
          · exact Or.inl h1
          · obtain ⟨hmapfst, hall⟩ := fetchLevelE_ok fetch _ results hlv
            rw [← hmapfst] at h1
            rcases List.mem_map.1 h1 with ⟨ent, hent, rfl⟩
            exact Or.inr ⟨ent.2, hall ent hent⟩
        · exact Or.inr hok

/-- A failing fetch of the start node aborts the whole builder run with that
very error. -/
theorem bfsLoopE_error_start {ε : Type} (fetch : String → Except ε (List Parent))
    (start : String) (fuel : Nat) (e : ε) (h : fetch start = .error e) :
    bfsLoopE fetch (fuel + 1) [start] [] [] = .error e := by
  rw [bfsLoopE_succ]
  simp only []
  have htodo : (([start].filter (fun d => decide (d ∉ ([] : List String)))).dedup) =
      [start] := by simp
  rw [htodo, if_neg (by simp)]
  simp only [fetchLevelE, h]

theorem fetch_parents_lru_valid (fetch : String → List Parent) (c : Cache)
    (d : String) (h : CacheValid fetch c) :
    (fetch_parents_lru fetch c d).1 = fetch d ∧
      CacheValid fetch (fetch_parents_lru fetch c d).2.1 := by
  unfold fetch_parents_lru
  cases hl : lookupKey d c with
  | some ps => exact ⟨h d ps hl, h⟩
  | none =>
    refine ⟨rfl, ?_⟩
    intro d' ps' hl'
    simp only [lookupKey] at hl'
    by_cases hd : d = d'
    · rw [if_pos hd] at hl'
      cases hl'
      rw [hd]
    · rw [if_neg hd] at hl'
      exact h d' ps' hl'

theorem fetchLevelC_go (fetch : String → List Parent) :
    ∀ (todo : List String) (acc0 : List (String × List Parent)) (c : Cache),
      CacheValid fetch c →
      (todo.foldl
        (fun acc d =>
          (acc.1 ++ [(d, (fetch_parents_lru fetch acc.2 d).1)],
            (fetch_parents_lru fetch acc.2 d).2.1))
        (acc0, c)).1 = acc0 ++ todo.map (fun d => (d, fetch d)) ∧
      CacheValid fetch
        (todo.foldl
          (fun acc d =>
            (acc.1 ++ [(d, (fetch_parents_lru fetch acc.2 d).1)],
              (fetch_parents_lru fetch acc.2 d).2.1))
          (acc0, c)).2 := by
  intro todo
  induction todo with
  | nil => intro acc0 c h; exact ⟨by simp, h⟩
  | cons d rest ih =>
    intro acc0 c h
    obtain ⟨hv, hc⟩ := fetch_parents_lru_valid fetch c d h
    have := ih (acc0 ++ [(d, (fetch_parents_lru fetch c d).1)])
      (fetch_parents_lru fetch c d).2.1 hc
    rw [List.foldl_cons]
    refine ⟨?_, this.2⟩
    rw [this.1, hv]
    simp

/-- With a valid shared cache, the cached builder computes exactly what the
cacheless builder computes, and the cache it returns is again valid. -/
theorem bfsLoopC_eq_bfsLoop (fetch : String → List Parent) :
    ∀ fuel frontier visited amap c, CacheValid fetch c →
      (bfsLoopC fetch fuel frontier visited amap c).1 =
          bfsLoop fetch fuel frontier visited amap ∧
        CacheValid fetch (bfsLoopC fetch fuel frontier visited amap c).2 := by
  intro fuel
  induction fuel with
  | zero => intro frontier visited amap c h; exact ⟨rfl, h⟩
  | succ n ih =>
    intro frontier visited amap c h
    rw [bfsLoopC.eq_def, bfsLoop_succ]
    simp only []
    by_cases htodo : (frontier.filter (fun d => decide (d ∉ visited))).dedup = []
    · rw [if_pos htodo, if_pos htodo]
      exact ⟨rfl, h⟩
    · rw [if_neg htodo, if_neg htodo]
      obtain ⟨hlvl, hc⟩ := fetchLevelC_go fetch
        ((frontier.filter (fun d => decide (d ∉ visited))).dedup) [] c h
      have hlvl' : (fetchLevelC fetch c
          ((frontier.filter (fun d => decide (d ∉ visited))).dedup)).1 =
          ((frontier.filter (fun d => decide (d ∉ visited))).dedup).map
            (fun d => (d, fetch d)) := by
        unfold fetchLevelC
        rw [hlvl]
        simp
      have hc' : CacheValid fetch (fetchLevelC fetch c
          ((frontier.filter (fun d => decide (d ∉ visited))).dedup)).2 := hc
      rw [hlvl', List.flatMap_map]
      exact ih _ _ _ _ hc'

/-- C5: a failing parent fetch propagates unchanged: the cached fetcher
returns the very error without populating the cache (so a later call with a
now-succeeding fetch performs the network request afresh); a successful
builder run certifies that every node it fetched succeeded (contrapositive:
any failure during the traversal forecloses an `ok` result — no partial
ancestry); and the orchestrator surfaces the builder's error for the affected
starting entity. -/
theorem c5_failure_propagates {ε : Type} (rel : ParentRelE ε)
    (fetch : String → Except ε (List Parent)) (c : Cache) (start d : String)
    (e : ε) :
    (lookupKey d c = none → fetch d = .error e →
      fetch_parents_lru_e fetch c d = .error e) ∧
    (∀ ps, lookupKey d c = none → fetch d = .ok ps →
      fetch_parents_lru_e fetch c d = .ok (ps, (d, ps) :: c, 1)) ∧
    (∀ fuel frontier visited amap r,
      bfsLoopE fetch fuel frontier visited amap = .ok r →
      ∀ x ∈ r.2, x ∈ visited ∨ ∃ ps, fetch x = .ok ps) ∧
    (fetchOfE rel start = .error e →
      fetch_entity_ancestry_e rel (.one start) false = .error e) := by
  refine ⟨?_, ?_, bfsLoopE_ok_log fetch, ?_⟩
  · intro h1 h2
    simp [fetch_parents_lru_e, h1, h2]
  · intro ps h1 h2
    simp [fetch_parents_lru_e, h1, h2]
  · intro h
    have herr := bfsLoopE_error_start (fetchOfE rel) start
      ((start :: allParentDcidsE rel).dedup.length) e h
    have hb : bfsBoundE rel start =
        (start :: allParentDcidsE rel).dedup.length + 1 := rfl
    unfold fetch_entity_ancestry_e normalizeInput
    rw [List.foldl_cons, List.foldl_nil, hb, herr]

/-- Witness for C5 at a concrete input. -/
theorem c5_failure_propagates_witness :
    fetchOfE failRelE "A" = .error "boom" ∧
    fetch_entity_ancestry_e failRelE (.one "A") false = .error "boom" :=
  ⟨rfl, (c5_failure_propagates failRelE (fetchOfE failRelE) [] "A" "A"
    "boom").2.2.2 rfl⟩

/-- C6: the orchestrator normalizes a single identifier into a one-element
sequence; for two distinct starting entities with disjoint ancestries,
`fetch_entity_ancestry([X, Y], as_tree=False)` returns a mapping with exactly
the two input keys, and the value at each key equals the value a
single-entity call for that key alone returns (the shared cache, being
consistent with the fetcher, cannot change any builder's result). -/
theorem c6_orchestrator_fanout_independence (rel : ParentRel) (X Y : String)
    (hne : X ≠ Y)
    (hdisj : ∀ dd, dd ∈ ((build_ancestry_map rel X).2).map Prod.fst →
      dd ∉ ((build_ancestry_map rel Y).2).map Prod.fst) :
    (∀ (input : String) (b : Bool),
      fetch_entity_ancestry rel (.one input) b =
        fetch_entity_ancestry rel (.many [input]) b) ∧
    (fetch_entity_ancestry rel (.many [X, Y]) false).map Prod.fst = [X, Y] ∧
    lookupKey X (fetch_entity_ancestry rel (.many [X, Y]) false) =
      lookupKey X (fetch_entity_ancestry rel (.one X) false) ∧
    lookupKey Y (fetch_entity_ancestry rel (.many [X, Y]) false) =
      lookupKey Y (fetch_entity_ancestry rel (.one Y) false) := by
  have hv0 : CacheValid (fetchOf rel) [] := by
    intro a ps h
    simp [lookupKey] at h
  have h1 := bfsLoopC_eq_bfsLoop (fetchOf rel) (bfsBound rel X) [X] [] [] [] hv0
  have h2 := bfsLoopC_eq_bfsLoop (fetchOf rel) (bfsBound rel Y) [Y] [] []
    (bfsLoopC (fetchOf rel) (bfsBound rel X) [X] [] [] []).2 h1.2
  have h3 := bfsLoopC_eq_bfsLoop (fetchOf rel) (bfsBound rel Y) [Y] [] [] [] hv0
  have hmap : (bfsLoopC (fetchOf rel) (bfsBound rel Y) [Y] [] []
      (bfsLoopC (fetchOf rel) (bfsBound rel X) [X] [] [] []).2).1.1 =
      (bfsLoopC (fetchOf rel) (bfsBound rel Y) [Y] [] [] ([] : Cache)).1.1 := by
    rw [h2.1, h3.1]
  have hmulti : fetch_entity_ancestry rel (.many [X, Y]) false =
      [(X, .flat (flatten_ancestry X
          (bfsLoopC (fetchOf rel) (bfsBound rel X) [X] [] [] []).1.1)),
        (Y, .flat (flatten_ancestry Y
          (bfsLoopC (fetchOf rel) (bfsBound rel Y) [Y] [] []
            (bfsLoopC (fetchOf rel) (bfsBound rel X) [X] [] [] []).2).1.1))] := rfl
  have hsingleX : fetch_entity_ancestry rel (.one X) false =
      [(X, .flat (flatten_ancestry X
          (bfsLoopC (fetchOf rel) (bfsBound rel X) [X] [] [] []).1.1))] := rfl
  have hsingleY : fetch_entity_ancestry rel (.one Y) false =
      [(Y, .flat (flatten_ancestry Y
          (bfsLoopC (fetchOf rel) (bfsBound rel Y) [Y] [] [] ([] : Cache)).1.1))] := rfl
  refine ⟨fun input b => rfl, ?_, ?_, ?_⟩
  · rw [hmulti]; rfl
  · rw [hmulti, hsingleX]
    simp [lookupKey]
  · rw [hmulti, hsingleY]
    simp [lookupKey, hne, hmap]

/-- Witness for C6 at a concrete input. -/
theorem c6_orchestrator_fanout_independence_witness :
    ("X" : String) ≠ "Y" ∧
    (∀ dd, dd ∈ ((build_ancestry_map disjointRel "X").2).map Prod.fst →
      dd ∉ ((build_ancestry_map disjointRel "Y").2).map Prod.fst) ∧
    (fetch_entity_ancestry disjointRel (.many ["X", "Y"]) false).map Prod.fst =
      ["X", "Y"] :=
  ⟨by decide, by decide,
    (c6_orchestrator_fanout_independence disjointRel "X" "Y" (by decide)
      (by decide)).2.1⟩

/-- C7 counterexample: with 20 input entities the nested pools admit
`20 × 20 = 400` simultaneously outstanding requests, exceeding the single
shared bound of `MAX_WORKERS = 20` that the claim asserts. -/
theorem c7_shared_bound_counterexample :
    worstCaseOutstanding 20 = 400 ∧
      ¬ worstCaseOutstanding 20 ≤ MAX_WORKERS := by
  decide

/-- C7 (amended): each of the two levels of parallelism is separately bounded
by the same constant `MAX_WORKERS` — at most `MAX_WORKERS` concurrent builder
invocations, each issuing at most `MAX_WORKERS` concurrent fetches — so the
bounds compound: total simultaneous outstanding requests are bounded by
`MAX_WORKERS * MAX_WORKERS`, not by `MAX_WORKERS`, however many input
entities are supplied. -/
theorem c7_two_level_bound_compounds (numEntities : Nat) :
    maxConcurrentBuilders numEntities ≤ MAX_WORKERS ∧
      worstCaseOutstanding numEntities ≤ MAX_WORKERS * MAX_WORKERS :=
  ⟨min_le_right _ _, Nat.mul_le_mul_right _ (min_le_right _ _)⟩

theorem fetch_entity_parents_go :
    ∀ (data : List (String × NodeProps)) (acc : List (String × List ParentEntry)),
      data.foldl
        (fun acc kv =>
          if normalizeProps kv.2 = [] then acc
          else acc ++ [(kv.1, (normalizeProps kv.2).map parentToDict)])
        acc =
      acc ++ data.filterMap (fun kv =>
        if normalizeProps kv.2 = [] then none
        else some (kv.1, (normalizeProps kv.2).map parentToDict)) := by
  intro data
  induction data with
  | nil => intro acc; simp
  | cons kv rest ih =>
    intro acc
    rw [List.foldl_cons, List.filterMap_cons]
    by_cases h : normalizeProps kv.2 = []
    · rw [if_pos h, if_pos h, ih]
    · rw [if_neg h, if_neg h, ih]
      simp

theorem lookupKey_filterMap_none {β : Type} (e : String)
    (g : String × NodeProps → Option (String × β)) :
    ∀ (data : List (String × NodeProps)),
      (∀ kv ∈ data, kv.1 = e → g kv = none) →
      (∀ kv ∈ data, ∀ v, g kv = some v → v.1 = kv.1) →
      lookupKey e (data.filterMap g) = none := by
  intro data
  induction data with
  | nil => intro _ _; rfl
  | cons kv rest ih =>
    intro hnone hfst
    rw [List.filterMap_cons]
    cases hg : g kv with
    | none =>
      exact ih (fun x hx => hnone x (List.mem_cons_of_mem _ hx))
        (fun x hx => hfst x (List.mem_cons_of_mem _ hx))
    | some v =>
      have hv1 : v.1 = kv.1 := hfst kv (List.mem_cons_self _ _) v hg
      have hke : kv.1 ≠ e := by
        intro hk
        have h0 := hnone kv (List.mem_cons_self _ _) hk
        rw [h0] at hg
        exact Option.noConfusion hg
      show lookupKey e (v :: rest.filterMap g) = none
      rcases v with ⟨v1, v2⟩
      simp only [lookupKey]
      rw [if_neg (fun hh => hke (hv1 ▸ hh))]
      exact ih (fun x hx => hnone x (List.mem_cons_of_mem _ hx))
        (fun x hx => hfst x (List.mem_cons_of_mem _ hx))

/-- C9: an entity whose response contributes no `containedInPlace` parents is
absent from the returned dictionary — no entity is ever mapped to an empty
list — and each parent entry's `type` value is the single type string exactly
when the parent's `types` sequence has length one, and the full ordered
sequence otherwise. -/
theorem c9_fetch_entity_parents_shape :
    (∀ (data : List (String × NodeProps)) (e : String),
      (∀ props, (e, props) ∈ data → normalizeProps props = []) →
      lookupKey e (fetch_entity_parents data) = none) ∧
    (∀ (data : List (String × NodeProps)) (e : String)
        (ps : List ParentEntry),
      lookupKey e (fetch_entity_parents data) = some ps → ps ≠ []) ∧
    (∀ (p : Parent) (t : String), p.types = [t] →
      (parentToDict p).type = .single t) ∧
    (∀ p : Parent, p.types.length ≠ 1 →
      (parentToDict p).type = .many p.types) := by
  refine ⟨?_, ?_, ?_, ?_⟩
  · intro data e h
    rw [show fetch_entity_parents data = [] ++ data.filterMap (fun kv =>
        if normalizeProps kv.2 = [] then none
        else some (kv.1, (normalizeProps kv.2).map parentToDict)) from
      fetch_entity_parents_go data []]
    rw [List.nil_append]
    refine lookupKey_filterMap_none e _ data ?_ ?_
    · intro kv hkv hk
      rw [if_pos]
      have : (e, kv.2) ∈ data := by rw [← hk]; exact hkv
      exact h kv.2 this
    · intro kv hkv v hv
      by_cases hn : normalizeProps kv.2 = []
      · rw [if_pos hn] at hv; exact Option.noConfusion hv
      · rw [if_neg hn] at hv
        cases hv
        rfl
  · intro data e ps h
    have hmem := lookupKey_mem h
    rw [show fetch_entity_parents data = [] ++ data.filterMap (fun kv =>
        if normalizeProps kv.2 = [] then none
        else some (kv.1, (normalizeProps kv.2).map parentToDict)) from
      fetch_entity_parents_go data [], List.nil_append] at hmem
    rcases List.mem_filterMap.1 hmem with ⟨kv, _, hg⟩
    by_cases hn : normalizeProps kv.2 = []
    · rw [if_pos hn] at hg; exact Option.noConfusion hg
    · rw [if_neg hn] at hg
      cases hg
      intro hc
      exact hn (List.map_eq_nil_iff.1 hc)
  · intro p t h
    show typeFieldOfTypes p.types = .single t
    rw [h]
    rfl
  · intro p h
    show typeFieldOfTypes p.types = .many p.types
    match hts : p.types with
    | [] => rfl
    | [t] => rw [hts] at h; exact absurd rfl h
    | t :: t' :: r => rfl

/-- Witness for C9 at a concrete input: an entity whose properties normalize
to the empty list is absent from the result. -/
theorem c9_fetch_entity_parents_shape_witness :
    lookupKey "E" (fetch_entity_parents [("E", .many [])]) = none :=
  c9_fetch_entity_parents_shape.1 [("E", .many [])] "E"
    (fun props hp => by
      have : props = NodeProps.many [] := by
        rcases List.mem_singleton.1 hp with h
        exact congrArg Prod.snd h
      rw [this]
      rfl)

/-- C10: `to_dict(exclude_none=True)` removes dictionary entries whose value
is `None` at every nesting depth (no dict entry in the output holds a null),
while a list is mapped element-wise — its length is preserved and a `None`
element inside a list survives in the output. -/
theorem c10_to_dict_exclude_none :
    (∀ v : JsonVal, noNullEntries (to_dict v true) = true) ∧
    (∀ xs : List JsonVal,
      to_dict (.arr xs) true = .arr (xs.map removeNone)) ∧
    (∀ xs : List JsonVal, (xs.map removeNone).length = xs.length) ∧
    (∀ xs : List JsonVal, JsonVal.null ∈ xs →
      JsonVal.null ∈ xs.map removeNone) := by
  refine ⟨?_, ?_, ?_, ?_⟩
  · intro v
    exact (removeNone_noNull_aux (sizeOf v)).1 v le_rfl
  · intro xs
    show removeNone (.arr xs) = .arr (xs.map removeNone)
    rw [removeNone, removeNoneList_eq_map]
  · intro xs
    exact List.length_map xs removeNone
  · intro xs h
    exact List.mem_map.2 ⟨.null, h, rfl⟩

/-- Witness for C10 at a concrete input: a null element of a list survives
`to_dict(exclude_none=True)`. -/
theorem c10_to_dict_exclude_none_witness :
    JsonVal.null ∈ [JsonVal.null] ∧
      JsonVal.null ∈ [JsonVal.null].map removeNone :=
  ⟨List.mem_singleton.2 rfl,
    c10_to_dict_exclude_none.2.2.2 [JsonVal.null] (List.mem_singleton.2 rfl)⟩

end DCClient

